import Mathlib

/-!
Verification development for the `chatbot-tpcn` repository, backend retrieval
core (`backend/rag.py`).  The Python code is shallowly embedded: strings are
`String`/`List Char`, dynamic dictionaries become structures with `Option`
fields, exceptions become `Except PyError`, and the numeric TF-IDF weights
produced by scikit-learn are abstracted as a parameter (the repository's own
logic — normalisation, corpus building, ranking, clamping, reload — is
embedded exactly).
-/

deriving instance DecidableEq for Except

namespace ChatbotTpcn

/-- Python's whitespace class as used by `re.sub(r"\s+", ...)` and `str.strip()`
on `str` values (`Py_UNICODE_ISSPACE`). -/
def isPySpace (c : Char) : Bool :=
  c.toNat == 0x20 || c.toNat == 0x09 || c.toNat == 0x0a || c.toNat == 0x0d ||
  c.toNat == 0x0b || c.toNat == 0x0c ||
  (0x1c ≤ c.toNat && c.toNat ≤ 0x1f) || c.toNat == 0x85 || c.toNat == 0xa0 ||
  c.toNat == 0x1680 || (0x2000 ≤ c.toNat && c.toNat ≤ 0x200a) ||
  c.toNat == 0x2028 || c.toNat == 0x2029 || c.toNat == 0x202f ||
  c.toNat == 0x205f || c.toNat == 0x3000

/-- Python `str.lower()`, restricted to the ASCII letters (the full Unicode
simple-lowercase map is abstracted to its ASCII core; the facts used about it
— idempotence, not creating whitespace or angle brackets — hold of the full
map as well). -/
def pyToLower (c : Char) : Char :=
  if 65 ≤ c.toNat ∧ c.toNat ≤ 90 then Char.ofNat (c.toNat + 32) else c

/-- One pass of `re.sub(r"\s+", " ", s)`: every maximal run of whitespace is
replaced by a single space.  The Boolean flag records whether the previous
character belonged to a whitespace run whose replacement space has already
been emitted. -/
def collapseAux : Bool → List Char → List Char
  | _, [] => []
  | inRun, c :: rest =>
    if isPySpace c then
      if inRun then collapseAux true rest else ' ' :: collapseAux true rest
    else c :: collapseAux false rest

/-- `re.sub(r"\s+", " ", s)` from `_norm_text` (rag.py line 59). -/
def collapseWs (l : List Char) : List Char := collapseAux false l

/-- Python `str.strip()` from `_norm_text` (rag.py line 60). -/
def pyStrip (l : List Char) : List Char :=
  ((l.dropWhile isPySpace).reverse.dropWhile isPySpace).reverse

/-- `re.sub(r"<[^>]+>", " ", s)` from `_norm_text` (rag.py line 58), as a
left-to-right scanner.  The first argument is the reversed buffer of pending
characters: empty when scanning outside a tag candidate, otherwise it holds a
`'<'` (at its bottom) and the non-`'>'` characters read since.  A `'>'`
arriving while at least one character sits above the `'<'` completes a match
`<[^>]+>`, which is replaced by one space; a `'>'` arriving right after the
`'<'` means `<>`, which the regex does not match, so the buffer is flushed
verbatim. -/
def stripTagsAux : List Char → List Char → List Char
  | buf, [] => buf.reverse
  | buf, c :: rest =>
    if buf.isEmpty then
      if c = '<' then stripTagsAux [c] rest
      else c :: stripTagsAux [] rest
    else
      if c = '>' then
        if 2 ≤ buf.length then ' ' :: stripTagsAux [] rest
        else buf.reverse ++ ('>' :: stripTagsAux [] rest)
      else stripTagsAux (c :: buf) rest

/-- Removal of HTML-tag-shaped substrings, `re.sub(r"<[^>]+>", " ", s)`. -/
def stripTags (l : List Char) : List Char := stripTagsAux [] l

/-- `_norm_text` (rag.py lines 55-60) on the character list of the string:
empty input maps to empty output; otherwise remove tags, collapse whitespace,
strip, lowercase. -/
def normChars (l : List Char) : List Char :=
  if l.isEmpty then []
  else (pyStrip (collapseWs (stripTags l))).map pyToLower

/-- `_norm_text` (rag.py lines 55-60). -/
def normText (s : String) : String := ⟨normChars s.data⟩

/-- `_join_list` (rag.py lines 62-66) applied to a list value: empty list is
falsy and yields `""`; otherwise each element is normalised and the results
are joined with single spaces. -/
def joinList (xs : List String) : String :=
  if xs.isEmpty then "" else String.intercalate " " (xs.map normText)

/-! ## Machinery for reasoning about the normaliser

`stripTagsSpec` is a second, recursion-by-jumps description of the same
`re.sub(r"<[^>]+>", " ", s)` pass: a `'<'` followed (at one or more
characters' distance) by a first `'>'` is a match that is replaced by one
space, scanning resuming after the `'>'`; a `'<'` with no such `'>'` is kept.
It is proved equal to `stripTags` and is more convenient for induction.

`TagSt` is the state of the scanner that recognises whether a string
contains a substring matching `<[^>]+>`: `A` neutral, `L` just after an
unmatched `'<'`, `B` after `'<'` plus at least one non-`'>'` character,
`M` a match has been seen. -/

/-- The reference recursion for tag removal (equal to `stripTags`). -/
def stripTagsSpec : List Char → List Char
  | [] => []
  | c :: rest =>
    if c = '<' then
      if ((rest.takeWhile (fun x => x ≠ '>')).isEmpty ∨
          (rest.dropWhile (fun x => x ≠ '>')).isEmpty) then
        c :: stripTagsSpec rest
      else ' ' :: stripTagsSpec (rest.dropWhile (fun x => x ≠ '>')).tail
    else c :: stripTagsSpec rest
termination_by l => l.length
decreasing_by
  · simp only [List.length_cons]; omega
  · have h1 : ((rest.dropWhile (fun x => x ≠ '>')).tail).length ≤
        (rest.dropWhile (fun x => x ≠ '>')).length :=
      (List.tail_sublist _).length_le
    have h2 : (rest.dropWhile (fun x => x ≠ '>')).length ≤ rest.length :=
      (List.dropWhile_sublist _).length_le
    simp only [List.length_cons]; omega
  · simp only [List.length_cons]; omega

/-- The states of the tag-matching scanner. -/
inductive TagSt where
  | A | L | B | M
deriving DecidableEq

/-- One step of the tag-matching scanner. -/
def tagStep : TagSt → Char → TagSt
  | .M, _ => .M
  | .A, c => if c = '<' then .L else .A
  | .L, c => if c = '>' then .A else .B
  | .B, c => if c = '>' then .M else .B

/-- Running the tag-matching scanner over a character list. -/
def tagScan (s : TagSt) (l : List Char) : TagSt := l.foldl tagStep s

/-- The list contains no substring matching `<[^>]+>`. -/
def NoTag (l : List Char) : Prop := tagScan .A l ≠ .M

/-- Danger ordering of scanner states. -/
def tagRank : TagSt → Nat
  | .A => 0 | .L => 1 | .B => 2 | .M => 3

/-- The shape `re.sub(r"\s+", " ", ...)` leaves behind: every whitespace
character is a plain space and no two adjacent characters are both
whitespace. -/
def SpacesOk (l : List Char) : Prop :=
  (∀ c ∈ l, isPySpace c = true → c = ' ') ∧
  l.Chain' (fun a b => ¬(isPySpace a = true ∧ isPySpace b = true))

/-- No element of the list's `head?` is whitespace. -/
def HeadNotSpace (l : List Char) : Prop := ∀ c ∈ l.head?, isPySpace c = false

/-- No element of the list's `getLast?` is whitespace. -/
def LastNotSpace (l : List Char) : Prop := ∀ c ∈ l.getLast?, isPySpace c = false

/-! ## Data model

The entity records of rag.py (class docstring, lines 71-75, and the access
patterns of `_build_corpus`).  Every field access in the Python goes through
`dict.get`, so every field is modelled as an `Option`.  `category_path` is the
one field that `_build_corpus` treats both as a string (passed to `_norm_text`)
and as a sequence (`" > ".join(...)` in the eagerly evaluated default), so its
value is modelled as either. -/

/-- A dynamically typed JSON value that is either a string or a list of
strings (the two shapes `category_path` takes in practice). -/
inductive StrOrList where
  | str : String → StrOrList
  | list : List String → StrOrList
deriving DecidableEq

/-- A product record (rag.py line 72). -/
structure Product where
  sku : Option String := none
  name : Option String := none
  description : Option String := none
  benefits : Option (List String) := none
  directions : Option String := none
  warnings : Option String := none
  tags : Option (List String) := none
  brand : Option String := none
  price_text : Option String := none
  category_path : Option StrOrList := none
  link : Option String := none
deriving DecidableEq

/-- An element of a combo's `items` list; `_build_corpus` only reads its
`sku`. -/
structure ComboItem where
  sku : Option String := none
deriving DecidableEq

/-- A combo record (rag.py line 73). -/
structure Combo where
  id : Option String := none
  name : Option String := none
  targets : Option (List String) := none
  items : Option (List ComboItem) := none
  protocol : Option String := none
  notes : Option String := none
deriving DecidableEq

/-- A symptom record (rag.py line 74). -/
structure Symptom where
  id : Option String := none
  symptom : Option String := none
  keywords : Option (List String) := none
  triage_questions : Option (List String) := none
  red_flags : Option (List String) := none
  first_line_products : Option (List String) := none
  combos : Option (List String) := none
  protocol : Option String := none
deriving DecidableEq

/-- The entity type recorded in a metadata tag. -/
inductive EntityType where
  | product | combo | symptom
deriving DecidableEq

/-- One metadata entry, `{"type": ..., "id": ...}` (rag.py lines 161/173/185). -/
structure MetaTag where
  type : EntityType
  id : Option String
deriving DecidableEq

/-- The Python exceptions that the embedded code can raise. -/
inductive PyError where
  | typeError | valueError
deriving DecidableEq

/-! ## Corpus builder (`MiniRAG._build_corpus`, rag.py lines 143-187) -/

/-- The ninth product field (rag.py line 158):
`_norm_text(p.get("category_path", " > ".join(p.get("category_path", []))))`.
The default argument of the outer `get` is evaluated eagerly but only *used*
when the key is absent, in which case the inner `get` yields `[]` and the
default is `"" `.  When the key is present the outer `get` returns the stored
value itself: a string is normalised, an empty list is falsy inside
`_norm_text` and yields `""`, and a non-empty list reaches
`re.sub(r"<[^>]+>", " ", s)`, which raises `TypeError` on a list. -/
def categoryPathField : Option StrOrList → Except PyError String
  | none => .ok (normText "")
  | some (.str s) => .ok (normText s)
  | some (.list []) => .ok ""
  | some (.list (_ :: _)) => .error .typeError

/-- The document derived from one product (rag.py lines 149-159): nine fields
joined with `" | "`. -/
def productDoc (p : Product) : Except PyError String := do
  let c9 ← categoryPathField p.category_path
  pure (String.intercalate " | "
    [normText (p.name.getD ""),
     normText (p.description.getD ""),
     joinList (p.benefits.getD []),
     normText (p.directions.getD ""),
     normText (p.warnings.getD ""),
     joinList (p.tags.getD []),
     normText (p.brand.getD ""),
     normText (p.price_text.getD ""),
     c9])

/-- The document the spec's words describe for a product (§4.3, claim C3):
the same nine fields, but with the ninth being `joinList(category_path)` and
no possibility of a fault.  Stated only to be compared with `productDoc`,
which is the embedding of the source. -/
def specProductDoc (p : Product) : String :=
  String.intercalate " | "
    [normText (p.name.getD ""),
     normText (p.description.getD ""),
     joinList (p.benefits.getD []),
     normText (p.directions.getD ""),
     normText (p.warnings.getD ""),
     joinList (p.tags.getD []),
     normText (p.brand.getD ""),
     normText (p.price_text.getD ""),
     match p.category_path with
     | none => ""
     | some (.str s) => normText s
     | some (.list l) => joinList l]

/-- The ninth field of the product document in the cases where the code does
not fault: `""` for an absent `category_path` or an empty list, and the
normalised string otherwise. -/
def categoryNinth : Option StrOrList → String
  | none => ""
  | some (.str s) => normText s
  | some (.list _) => ""

/-- The document derived from one combo (rag.py lines 165-171).  Note
`str(None)` is `"None"`, so a combo item without a `sku` contributes the
normalised text `"none"`. -/
def comboDoc (c : Combo) : String :=
  String.intercalate " | "
    [normText (c.name.getD ""),
     joinList (c.targets.getD []),
     normText (c.protocol.getD ""),
     joinList ((c.items.getD []).map (fun i => i.sku.getD "None")),
     normText (c.notes.getD "")]

/-- The document derived from one symptom (rag.py lines 177-183). -/
def symptomDoc (s : Symptom) : String :=
  String.intercalate " | "
    [normText (s.symptom.getD ""),
     joinList (s.keywords.getD []),
     joinList (s.triage_questions.getD []),
     joinList (s.red_flags.getD []),
     normText (s.protocol.getD "")]

/-- The metadata tag of a product document (rag.py line 161). -/
def productMeta (p : Product) : MetaTag := ⟨.product, p.sku⟩

/-- The metadata tag of a combo document (rag.py line 173). -/
def comboMeta (c : Combo) : MetaTag := ⟨.combo, c.id⟩

/-- The metadata tag of a symptom document (rag.py line 185). -/
def symptomMeta (s : Symptom) : MetaTag := ⟨.symptom, s.id⟩

/-- Effectful map over a list in the `Except` monad, stopping at the first
error — the behaviour of the Python `for` loop that builds the product
documents. -/
def mapMExcept (f : α → Except ε β) : List α → Except ε (List β)
  | [] => .ok []
  | a :: l => do
    let b ← f a
    let bs ← mapMExcept f l
    pure (b :: bs)

/-- `MiniRAG._build_corpus` (rag.py lines 143-187): documents and metadata in
the order products, combos, symptoms.  Only the product loop can raise
(through `category_path`); if it does, nothing is returned. -/
def buildCorpus (ps : List Product) (cs : List Combo) (ss : List Symptom) :
    Except PyError (List String × List MetaTag) := do
  let pdocs ← mapMExcept productDoc ps
  pure (pdocs ++ cs.map comboDoc ++ ss.map symptomDoc,
        ps.map productMeta ++ cs.map comboMeta ++ ss.map symptomMeta)

/-! ## Vector index (`TfidfVectorizer` / `cosine_similarity`)

The numeric TF-IDF weights and cosine values are external library semantics
(scikit-learn); they are abstracted as a parameter `fit : List String →
String → List ℚ`, read as: for a corpus fitted on the given documents, the
vector of cosine similarities of each document against a (already normalised)
query.  What *is* modelled concretely is the one discrete behaviour the
claims depend on: `fit_transform` raises `ValueError("empty vocabulary")`
when no document contains any token of the default token pattern
`(?u)\b\w\w+\b` (two or more adjacent word characters). -/

/-- A word character of the sklearn token pattern (ASCII core of `\w`). -/
def isWordChar (c : Char) : Bool := c.isAlphanum || c == '_'

/-- Whether a character list contains two adjacent word characters —
equivalently, whether the sklearn tokenizer `\b\w\w+\b` finds at least one
token in it. -/
def hasRun2 : List Char → Bool
  | [] => false
  | [_] => false
  | a :: b :: r => (isWordChar a && isWordChar b) || hasRun2 (b :: r)

/-- Whether fitting a vectorizer on these documents yields a non-empty
vocabulary. -/
def vocabNonempty (docs : List String) : Bool := docs.any (fun d => hasRun2 d.data)

/-- `TfidfVectorizer(ngram_range=(1, 2), min_df=1).fit_transform(docs)`
(rag.py lines 133-137): raises `ValueError` on an empty vocabulary, otherwise
produces the similarity oracle for this corpus. -/
def fitTfidf (fit : List String → String → List ℚ) (docs : List String) :
    Except PyError (String → List ℚ) :=
  if vocabNonempty docs then .ok (fit docs) else .error .valueError

/-! ## The engine (`class MiniRAG`) -/

/-- The mutable fields of a `MiniRAG` instance (rag.py lines 77-85; the
`vectorizer` field is subsumed by `matrix`, which carries the similarity
oracle of the fitted model). -/
structure MiniRAG where
  products : List Product := []
  combos : List Combo := []
  symptoms : List Symptom := []
  index_docs : List String := []
  meta : List MetaTag := []
  matrix : Option (String → List ℚ) := none

instance : Inhabited MiniRAG := ⟨{}⟩

/-- The external loader (§6 of the spec): the three collections that
`_load_products_from_url` / `_load_json_local` deliver to `_load_all`. -/
structure Loader where
  products : List Product := []
  combos : List Combo := []
  symptoms : List Symptom := []

/-- `MiniRAG._load_all` (rag.py lines 124-141) as a function from inputs to
its outcome: the state after a successful run, or the exception it raises.
Line 132: a non-empty corpus is fitted as is; an empty corpus falls back to
fitting `[""]`. -/
def loadAll (loader : Loader) (fit : List String → String → List ℚ) :
    Except PyError MiniRAG := do
  let (docs, meta) ← buildCorpus loader.products loader.combos loader.symptoms
  let m ← if docs.isEmpty then fitTfidf fit [""] else fitTfidf fit docs
  pure { products := loader.products, combos := loader.combos,
         symptoms := loader.symptoms,
         index_docs := docs, meta := meta, matrix := some m }

/-- The value `{"ok": True, "counts": {...}}` returned by `MiniRAG.reload`. -/
structure ReloadResult where
  ok : Bool
  products : Nat
  combos : Nat
  symptoms : Nat
deriving DecidableEq

/-- `MiniRAG.reload` (rag.py lines 88-98). -/
def MiniRAG.reload (loader : Loader) (fit : List String → String → List ℚ) :
    Except PyError (MiniRAG × ReloadResult) := do
  let st ← loadAll loader fit
  pure (st, ⟨true, st.products.length, st.combos.length, st.symptoms.length⟩)

/-- The successive states of the engine object *during* one `_load_all` call:
the Python method mutates `self` field by field (lines 126, 127, 128, 131,
134/137), so between two assignments a concurrent reader observes a partially
updated object.  The trace starts with the pre-call state and ends either at
the fully updated state or at the state left behind when an exception
escapes. -/
def loadAllTrace (st0 : MiniRAG) (loader : Loader)
    (fit : List String → String → List ℚ) : List MiniRAG :=
  let s1 := { st0 with products := loader.products }
  let s2 := { s1 with combos := loader.combos }
  let s3 := { s2 with symptoms := loader.symptoms }
  match buildCorpus loader.products loader.combos loader.symptoms with
  | .error _ => [st0, s1, s2, s3]
  | .ok (docs, meta) =>
    let s4 := { s3 with index_docs := docs, meta := meta }
    match (if docs.isEmpty then fitTfidf fit [""] else fitTfidf fit docs) with
    | .error _ => [st0, s1, s2, s3, s4]
    | .ok m => [st0, s1, s2, s3, s4, { s4 with matrix := some m }]

/-! ## Search (`MiniRAG.search`, rag.py lines 100-111) -/

/-- One element of the result list, `{"score": ..., "meta": ...}`. -/
structure Hit where
  score : ℚ
  meta : MetaTag
deriving DecidableEq

/-- The comparison key of the modelled `numpy.argsort`: ascending similarity,
with the original position as tiebreak (numpy's argsort is deterministic on
the small arrays at hand and places equal values in ascending index order;
it does not *guarantee* stability for its default kind, but no resolution of
ties makes the reversed order prefer lower indices). -/
def leIdx (sims : List ℚ) (i j : Nat) : Bool :=
  decide (sims.getD i 0 < sims.getD j 0 ∨ (sims.getD i 0 = sims.getD j 0 ∧ i ≤ j))

/-- Insert an index into an already sorted list of indices. -/
def insertSorted (le : Nat → Nat → Bool) (i : Nat) : List Nat → List Nat
  | [] => [i]
  | j :: r => if le i j then i :: j :: r else j :: insertSorted le i r

/-- Insertion sort on index lists. -/
def isort (le : Nat → Nat → Bool) : List Nat → List Nat
  | [] => []
  | i :: r => insertSorted le i (isort le r)

/-- `sims.argsort()` (rag.py line 107): the indices `0, ..., len(sims)-1`
sorted by ascending similarity. -/
def argsort (sims : List ℚ) : List Nat := isort (leIdx sims) (List.range sims.length)

/-- `sims.argsort()[::-1][:max(1, topk)]` (rag.py line 107). -/
def searchIdxs (sims : List ℚ) (topk : ℤ) : List Nat :=
  ((argsort sims).reverse).take (max 1 topk).toNat

/-- `MiniRAG.search` (rag.py lines 100-111).  The guard order is the source's:
blank query first, then `matrix is None or not len(index_docs)`.  In every
reachable state the similarity vector, the documents and the metadata have
equal length, so the access `self.meta[i]` is modelled with a default. -/
def MiniRAG.search (st : MiniRAG) (query : String) (topk : ℤ) : List Hit :=
  if (pyStrip query.data).isEmpty then []
  else
    match st.matrix with
    | none => []
    | some simsOf =>
      if st.index_docs.length = 0 then []
      else
        let sims := simsOf (normText query)
        (searchIdxs sims topk).map
          (fun i => ⟨sims.getD i 0, st.meta.getD i ⟨.product, none⟩⟩)

/-! ## Lookups (rag.py lines 114-121) -/

/-- `MiniRAG.get_product`: `next((p for p in self.products if p.get("sku") == sku), None)`.
A record whose `sku` is absent compares `None == sku`, which is `False`. -/
def MiniRAG.get_product (st : MiniRAG) (sku : String) : Option Product :=
  st.products.find? (fun p => p.sku == some sku)

/-- `MiniRAG.get_combo`. -/
def MiniRAG.get_combo (st : MiniRAG) (cid : String) : Option Combo :=
  st.combos.find? (fun c => c.id == some cid)

/-- `MiniRAG.get_symptom`. -/
def MiniRAG.get_symptom (st : MiniRAG) (sid : String) : Option Symptom :=
  st.symptoms.find? (fun s => s.id == some sid)

/-! ## Concrete fixtures

Small entity stores used to evaluate the embedded engine at concrete inputs.
`cxFitHalf` and `wFit` stand for the similarity vectors the fitted scikit-learn
model returns on the corresponding corpora; in `cxLoader`'s corpus the two
product documents are character-for-character identical, so their TF-IDF rows,
and hence their cosine scores against any query, coincide — the tie is what
matters, not its numeric value. -/

/-- Two products with identical derived document text (the spec's own tie
scenario, §8). -/
def cxLoader : Loader :=
  { products := [{ sku := some "P0", name := some "omega" },
                 { sku := some "P1", name := some "omega" }] }

/-- Equal similarity scores for the two identical documents of `cxLoader`. -/
def cxFitTie : List String → String → List ℚ := fun _ _ => [1, 1]

/-- The snapshot built by `_load_all` over `cxLoader`. -/
def cxSnap : MiniRAG := (loadAll cxLoader cxFitTie).toOption.getD {}

/-- A store with one product, one combo and one symptom. -/
def wLoader : Loader :=
  { products := [{ sku := some "P0", name := some "omega" }],
    combos := [{ id := some "C1", name := some "combo demo" }],
    symptoms := [{ id := some "S1", symptom := some "dau lung" }] }

/-- Similarity vectors for `wLoader`'s three-document corpus (the all-zero
vector a fully out-of-vocabulary query produces). -/
def wFit : List String → String → List ℚ := fun _ _ => [0, 0, 0]

/-- The snapshot built by `_load_all` over `wLoader`. -/
def wSt : MiniRAG := (loadAll wLoader wFit).toOption.getD {}

/-- A product whose `category_path` is a non-empty list, as the spec's data
model (§3) allows. -/
def cxBadProduct : Product :=
  { sku := some "PX", category_path := some (.list ["Vitamin"]) }

/-- A product with assorted populated fields and a string `category_path`. -/
def aProduct : Product :=
  { sku := some "SKU1", name := some "Omega<b>3</b>", description := some "  vien  dau ca ",
    benefits := some ["bo nao", "sang mat"], category_path := some (.str "A > B") }

/-- A store whose single product has no `sku` key. -/
def kSt : MiniRAG := { products := [{ name := some "no sku product" }] }

/-! # Theorems -/

/-! ## Character facts -/

theorem charToNat_inj {a b : Char} (h : a.toNat = b.toNat) : a = b := by
  apply Char.eq_of_val_eq
  unfold Char.toNat at h
  exact UInt32.toNat.inj h

theorem toNat_ofNat_valid {n : Nat} (h : n.isValidChar) : (Char.ofNat n).toNat = n := by
  simp [Char.ofNat, h, Char.toNat, Char.ofNatAux, UInt32.toNat, UInt32.ofNatCore]

theorem pyToLower_toNat_of_upper {c : Char} (h1 : 65 ≤ c.toNat) (h2 : c.toNat ≤ 90) :
    (pyToLower c).toNat = c.toNat + 32 := by
  have hv : (c.toNat + 32).isValidChar := Or.inl (by omega)
  simp only [pyToLower, if_pos (And.intro h1 h2)]
  exact toNat_ofNat_valid hv

theorem pyToLower_eq_self {c : Char} (h : ¬(65 ≤ c.toNat ∧ c.toNat ≤ 90)) :
    pyToLower c = c := by
  simp only [pyToLower, if_neg h]

theorem pyToLower_idem (c : Char) : pyToLower (pyToLower c) = pyToLower c := by
  by_cases h : 65 ≤ c.toNat ∧ c.toNat ≤ 90
  · have ht := pyToLower_toNat_of_upper h.1 h.2
    apply pyToLower_eq_self
    omega
  · rw [pyToLower_eq_self h, pyToLower_eq_self h]

theorem isPySpace_pyToLower (c : Char) : isPySpace (pyToLower c) = isPySpace c := by
  by_cases h : 65 ≤ c.toNat ∧ c.toNat ≤ 90
  · have ht := pyToLower_toNat_of_upper h.1 h.2
    have e1 : isPySpace (pyToLower c) = false := by
      simp only [isPySpace]
      simp only [Bool.or_eq_false_iff, Bool.and_eq_false_iff, beq_eq_false_iff_ne,
        ne_eq, decide_eq_false_iff_not]
      omega
    have e2 : isPySpace c = false := by
      simp only [isPySpace]
      simp only [Bool.or_eq_false_iff, Bool.and_eq_false_iff, beq_eq_false_iff_ne,
        ne_eq, decide_eq_false_iff_not]
      omega
    rw [e1, e2]
  · rw [pyToLower_eq_self h]

theorem pyToLower_of_space {c : Char} (h : isPySpace c = true) : pyToLower c = c := by
  apply pyToLower_eq_self
  simp only [isPySpace, Bool.or_eq_true, Nat.beq_eq_true_eq, Bool.and_eq_true,
    decide_eq_true_eq] at h
  omega

theorem space_ne_lt {c : Char} (h : isPySpace c = true) : c ≠ '<' := by
  intro he
  subst he
  exact absurd h (by decide)

theorem space_ne_gt {c : Char} (h : isPySpace c = true) : c ≠ '>' := by
  intro he
  subst he
  exact absurd h (by decide)

/-! ## The tag-matching scanner -/

theorem tagScan_nil (s : TagSt) : tagScan s [] = s := rfl

theorem tagScan_cons (s : TagSt) (c : Char) (l : List Char) :
    tagScan s (c :: l) = tagScan (tagStep s c) l := rfl

theorem tagScan_append (s : TagSt) (u v : List Char) :
    tagScan s (u ++ v) = tagScan (tagScan s u) v :=
  List.foldl_append _ _ _ _

theorem tagScan_M (l : List Char) : tagScan .M l = .M := by
  induction l with
  | nil => rfl
  | cons c r ih => rw [tagScan_cons]; exact ih

theorem tagStep_rank_mono (s t : TagSt) (c : Char) (h : tagRank s ≤ tagRank t) :
    tagRank (tagStep s c) ≤ tagRank (tagStep t c) := by
  cases s <;> cases t <;>
    simp only [tagRank, tagStep] at h ⊢ <;>
    first
      | omega
      | (split_ifs <;> simp_all [tagRank])

theorem tagScan_rank_mono (l : List Char) :
    ∀ s t : TagSt, tagRank s ≤ tagRank t →
      tagRank (tagScan s l) ≤ tagRank (tagScan t l) := by
  induction l with
  | nil => intro s t h; exact h
  | cons c r ih =>
    intro s t h
    rw [tagScan_cons, tagScan_cons]
    exact ih _ _ (tagStep_rank_mono s t c h)

theorem eq_M_of_rank {s : TagSt} (h : 3 ≤ tagRank s) : s = .M := by
  cases s <;> simp_all [tagRank]

theorem tagScan_ne_M_mono {s t : TagSt} {l : List Char} (hst : tagRank s ≤ tagRank t)
    (h : tagScan t l ≠ .M) : tagScan s l ≠ .M := by
  intro he
  apply h
  apply eq_M_of_rank
  have := tagScan_rank_mono l s t hst
  rw [he] at this
  simpa [tagRank] using this

theorem tagRank_A_le (s : TagSt) : tagRank .A ≤ tagRank s := by
  cases s <;> simp [tagRank]

theorem NoTag.append_right {u v : List Char} (h : NoTag (u ++ v)) : NoTag v := by
  unfold NoTag at h ⊢
  rw [tagScan_append] at h
  exact tagScan_ne_M_mono (tagRank_A_le _) h

theorem NoTag.append_left {u v : List Char} (h : NoTag (u ++ v)) : NoTag u := by
  unfold NoTag at h ⊢
  intro he
  apply h
  rw [tagScan_append, he, tagScan_M]

theorem noTag_of_mid {l l' : List Char} (h : NoTag l) (hi : l' <:+: l) : NoTag l' := by
  obtain ⟨u, w, rfl⟩ := hi
  exact (h.append_left).append_right

theorem tagStep_ne_M {s : TagSt} {c : Char} (hs : s ≠ .M) (hc : c ≠ '>') :
    tagStep s c ≠ .M := by
  cases s <;> (simp_all [tagStep]; try (split_ifs <;> simp_all))

theorem tagScan_ne_M_of_no_gt {l : List Char} (h : ∀ c ∈ l, c ≠ '>') :
    ∀ s : TagSt, s ≠ .M → tagScan s l ≠ .M := by
  induction l with
  | nil => intro s hs; exact hs
  | cons c r ih =>
    intro s hs
    rw [tagScan_cons]
    exact ih (fun d hd => h d (List.mem_cons_of_mem _ hd))
      _ (tagStep_ne_M hs (h c (List.mem_cons_self c r)))

/-! ## Tag removal: reference recursion, equivalence, and scanner facts -/

theorem dropWhile_head_not {α : Type _} {p : α → Bool} :
    ∀ {l : List α} {c : α} {r : List α}, l.dropWhile p = c :: r → p c = false := by
  intro l
  induction l with
  | nil => intro c r h; simp [List.dropWhile] at h
  | cons a l ih =>
    intro c r h
    rw [List.dropWhile_cons] at h
    split_ifs at h with hp
    · exact ih h
    · injection h with h1 _
      subst h1
      simpa using hp

theorem dropWhile_of_no_gt {rest : List Char} (h : ∀ c ∈ rest, c ≠ '>') :
    rest.dropWhile (fun x => x ≠ '>') = [] :=
  List.dropWhile_eq_nil_iff.mpr (fun x hx => by simp [h x hx])

theorem stripTagsSpec_nil : stripTagsSpec [] = [] := by rw [stripTagsSpec]

theorem stripTagsSpec_cons_not_lt {c : Char} (h : c ≠ '<') (rest : List Char) :
    stripTagsSpec (c :: rest) = c :: stripTagsSpec rest := by
  rw [stripTagsSpec]
  simp [h]

theorem stripTagsSpec_cons_lt_keep {rest : List Char}
    (h : ((rest.takeWhile (fun x => x ≠ '>')).isEmpty ∨
          (rest.dropWhile (fun x => x ≠ '>')).isEmpty)) :
    stripTagsSpec ('<' :: rest) = '<' :: stripTagsSpec rest := by
  rw [stripTagsSpec]
  split_ifs with h1
  · rfl
  · exact absurd rfl h1

theorem stripTagsSpec_cons_lt_match {rest : List Char}
    (h : ¬((rest.takeWhile (fun x => x ≠ '>')).isEmpty ∨
           (rest.dropWhile (fun x => x ≠ '>')).isEmpty)) :
    stripTagsSpec ('<' :: rest) =
      ' ' :: stripTagsSpec (rest.dropWhile (fun x => x ≠ '>')).tail := by
  rw [stripTagsSpec]
  split_ifs with h1
  · rfl
  · exact absurd rfl h1

theorem stripTagsSpec_of_no_gt :
    ∀ n (l : List Char), l.length ≤ n → (∀ c ∈ l, c ≠ '>') → stripTagsSpec l = l := by
  intro n
  induction n with
  | zero =>
    intro l hl _
    have : l = [] := List.length_eq_zero.mp (Nat.le_zero.mp hl)
    subst this
    exact stripTagsSpec_nil
  | succ n ih =>
    intro l hl h
    match l with
    | [] => exact stripTagsSpec_nil
    | c :: rest =>
      have hrest : rest.length ≤ n := by
        simp only [List.length_cons] at hl; omega
      have hmem : ∀ d ∈ rest, d ≠ '>' := fun d hd => h d (List.mem_cons_of_mem _ hd)
      by_cases hc : c = '<'
      · subst hc
        rw [stripTagsSpec_cons_lt_keep (Or.inr (by rw [dropWhile_of_no_gt hmem]; rfl))]
        rw [ih rest hrest hmem]
      · rw [stripTagsSpec_cons_not_lt hc, ih rest hrest hmem]

theorem mem_stripTagsSpec :
    ∀ n (l : List Char), l.length ≤ n → ∀ c ∈ stripTagsSpec l, c = ' ' ∨ c ∈ l := by
  intro n
  induction n with
  | zero =>
    intro l hl c hc
    have : l = [] := List.length_eq_zero.mp (Nat.le_zero.mp hl)
    subst this
    rw [stripTagsSpec_nil] at hc
    simp at hc
  | succ n ih =>
    intro l hl c hc
    match l with
    | [] => rw [stripTagsSpec_nil] at hc; simp at hc
    | a :: rest =>
      have hrest : rest.length ≤ n := by
        simp only [List.length_cons] at hl; omega
      by_cases ha : a = '<'
      · subst ha
        by_cases hk : ((rest.takeWhile (fun x => x ≠ '>')).isEmpty ∨
            (rest.dropWhile (fun x => x ≠ '>')).isEmpty)
        · rw [stripTagsSpec_cons_lt_keep hk] at hc
          rcases List.mem_cons.mp hc with h1 | h1
          · right; rw [h1]; exact List.mem_cons_self _ _
          · rcases ih rest hrest c h1 with h2 | h2
            · left; exact h2
            · right; exact List.mem_cons_of_mem _ h2
        · rw [stripTagsSpec_cons_lt_match hk] at hc
          rcases List.mem_cons.mp hc with h1 | h1
          · left; exact h1
          · have hsub : ((rest.dropWhile (fun x => x ≠ '>')).tail).Sublist rest :=
              (List.tail_sublist _).trans (List.dropWhile_sublist _)
            have hlen : ((rest.dropWhile (fun x => x ≠ '>')).tail).length ≤ n :=
              le_trans hsub.length_le hrest
            rcases ih _ hlen c h1 with h2 | h2
            · left; exact h2
            · right; exact List.mem_cons_of_mem _ (hsub.subset h2)
      · rw [stripTagsSpec_cons_not_lt ha] at hc
        rcases List.mem_cons.mp hc with h1 | h1
        · right; rw [h1]; exact List.mem_cons_self _ _
        · rcases ih rest hrest c h1 with h2 | h2
          · left; exact h2
          · right; exact List.mem_cons_of_mem _ h2

theorem tagStep_A_not_lt {c : Char} (h : c ≠ '<') : tagStep .A c = .A := by
  simp [tagStep, h]

theorem tagScan_B_of_no_gt {m : List Char} (h : ∀ c ∈ m, c ≠ '>') :
    tagScan .B m = .B := by
  induction m with
  | nil => rfl
  | cons c r ih =>
    rw [tagScan_cons]
    have : tagStep .B c = .B := by
      simp [tagStep, h c (List.mem_cons_self c r)]
    rw [this]
    exact ih (fun d hd => h d (List.mem_cons_of_mem _ hd))

theorem noTag_stripTagsSpec :
    ∀ n (l : List Char), l.length ≤ n → NoTag (stripTagsSpec l) := by
  intro n
  induction n with
  | zero =>
    intro l hl
    have : l = [] := List.length_eq_zero.mp (Nat.le_zero.mp hl)
    subst this
    rw [stripTagsSpec_nil]
    unfold NoTag tagScan
    decide
  | succ n ih =>
    intro l hl
    match l with
    | [] =>
      rw [stripTagsSpec_nil]
      unfold NoTag tagScan
      decide
    | a :: rest =>
      have hrest : rest.length ≤ n := by
        simp only [List.length_cons] at hl; omega
      by_cases ha : a = '<'
      · subst ha
        by_cases hg : ∀ c ∈ rest, c ≠ '>'
        · rw [stripTagsSpec_cons_lt_keep (Or.inr (by rw [dropWhile_of_no_gt hg]; rfl))]
          unfold NoTag
          rw [tagScan_cons]
          have hstep : tagStep .A '<' = .L := by decide
          rw [hstep]
          have hmem : ∀ c ∈ stripTagsSpec rest, c ≠ '>' := by
            intro c hc
            rcases mem_stripTagsSpec n rest hrest c hc with h1 | h1
            · rw [h1]; decide
            · exact hg c h1
          exact tagScan_ne_M_of_no_gt hmem .L (by decide)
        · match rest with
          | [] => exact absurd (fun c hc => absurd hc (List.not_mem_nil c)) hg
          | d :: rest' =>
            have hrest' : rest'.length ≤ n := by
              simp only [List.length_cons] at hl; omega
            by_cases hd : d = '>'
            · subst hd
              rw [stripTagsSpec_cons_lt_keep (Or.inl (by simp [List.takeWhile_cons]))]
              rw [stripTagsSpec_cons_not_lt (by decide)]
              unfold NoTag
              rw [tagScan_cons, tagScan_cons]
              have : tagStep (tagStep .A '<') '>' = .A := by decide
              simp only [this]
              exact ih rest' hrest'
            · have hafter : ((d :: rest').dropWhile (fun x => x ≠ '>')) ≠ [] := by
                intro hnil
                apply hg
                intro x hx
                have := List.dropWhile_eq_nil_iff.mp hnil x hx
                simpa using this
              have hne : ¬(((d :: rest').takeWhile (fun x => x ≠ '>')).isEmpty ∨
                  ((d :: rest').dropWhile (fun x => x ≠ '>')).isEmpty) := by
                rw [not_or]
                constructor
                · simp [List.takeWhile_cons, hd]
                · simpa [List.isEmpty_iff] using hafter
              rw [stripTagsSpec_cons_lt_match hne]
              unfold NoTag
              rw [tagScan_cons]
              have hstep : tagStep .A ' ' = .A := by decide
              rw [hstep]
              have hlen : (((d :: rest').dropWhile (fun x => x ≠ '>')).tail).length ≤ n := by
                have hsub : (((d :: rest').dropWhile (fun x => x ≠ '>')).tail).Sublist (d :: rest') :=
                  (List.tail_sublist _).trans (List.dropWhile_sublist _)
                have := hsub.length_le
                simp only [List.length_cons] at this hl ⊢
                omega
              exact ih _ hlen
      · rw [stripTagsSpec_cons_not_lt ha]
        unfold NoTag
        rw [tagScan_cons, tagStep_A_not_lt ha]
        exact ih rest hrest

theorem noTag_cons_not_lt {a : Char} {rest : List Char} (ha : a ≠ '<')
    (h : NoTag (a :: rest)) : NoTag rest := by
  unfold NoTag at h ⊢
  rwa [tagScan_cons, tagStep_A_not_lt ha] at h

theorem stripTagsSpec_of_noTag :
    ∀ n (l : List Char), l.length ≤ n → NoTag l → stripTagsSpec l = l := by
  intro n
  induction n with
  | zero =>
    intro l hl _
    have : l = [] := List.length_eq_zero.mp (Nat.le_zero.mp hl)
    subst this
    exact stripTagsSpec_nil
  | succ n ih =>
    intro l hl h
    match l with
    | [] => exact stripTagsSpec_nil
    | a :: rest =>
      have hrest : rest.length ≤ n := by
        simp only [List.length_cons] at hl; omega
      by_cases ha : a = '<'
      · subst ha
        by_cases hg : ∀ c ∈ rest, c ≠ '>'
        · rw [stripTagsSpec_cons_lt_keep (Or.inr (by rw [dropWhile_of_no_gt hg]; rfl))]
          rw [stripTagsSpec_of_no_gt n rest hrest hg]
        · match rest with
          | [] => exact absurd (fun c hc => absurd hc (List.not_mem_nil c)) hg
          | d :: rest' =>
            have hrest' : rest'.length ≤ n := by
              simp only [List.length_cons] at hl; omega
            by_cases hd : d = '>'
            · subst hd
              rw [stripTagsSpec_cons_lt_keep (Or.inl (by simp [List.takeWhile_cons]))]
              rw [stripTagsSpec_cons_not_lt (by decide)]
              have hnt : NoTag rest' := by
                unfold NoTag at h ⊢
                rw [tagScan_cons, tagScan_cons] at h
                have : tagStep (tagStep .A '<') '>' = .A := by decide
                rwa [this] at h
              rw [ih rest' hrest' hnt]
            · exfalso
              -- the list contains a full match `<[^>]+>`, contradicting `NoTag`
              have hbefore : (d :: rest').takeWhile (fun x => x ≠ '>') =
                  d :: rest'.takeWhile (fun x => x ≠ '>') := by
                simp [List.takeWhile_cons, hd]
              have hafter : ((d :: rest').dropWhile (fun x => x ≠ '>')) ≠ [] := by
                intro hnil
                apply hg
                intro x hx
                have := List.dropWhile_eq_nil_iff.mp hnil x hx
                simpa using this
              obtain ⟨g, after', hga⟩ := List.exists_cons_of_ne_nil hafter
              have hgval : g = '>' := by
                have := dropWhile_head_not hga
                simpa using this
              subst hgval
              have hsplit : (d :: rest').takeWhile (fun x => x ≠ '>') ++
                  ('>' :: after') = d :: rest' := by
                rw [← hga]
                exact List.takeWhile_append_dropWhile _ _
              apply h
              show tagScan .A ('<' :: (d :: rest')) = .M
              rw [show ('<' :: (d :: rest')) =
                  '<' :: ((d :: rest').takeWhile (fun x => x ≠ '>') ++ ('>' :: after'))
                  from by rw [hsplit]]
              rw [tagScan_cons]
              have h1 : tagStep .A '<' = .L := by decide
              rw [h1, hbefore, tagScan_append]
              have hmemtw : ∀ c ∈ rest'.takeWhile (fun x => x ≠ '>'), c ≠ '>' := by
                intro c hc
                have := List.mem_takeWhile_imp hc
                simpa using this
              have hscan : tagScan .L (d :: rest'.takeWhile (fun x => x ≠ '>')) = .B := by
                rw [tagScan_cons]
                have hd' : tagStep .L d = .B := by
                  simp [tagStep, hd]
                rw [hd']
                exact tagScan_B_of_no_gt hmemtw
              rw [hscan, tagScan_cons]
              have h2 : tagStep .B '>' = .M := by decide
              rw [h2, tagScan_M]
      · rw [stripTagsSpec_cons_not_lt ha, ih rest hrest (noTag_cons_not_lt ha h)]

theorem takeWhile_gt_append {mid r : List Char} (hmid : ∀ c ∈ mid, c ≠ '>') :
    (mid ++ '>' :: r).takeWhile (fun x => x ≠ '>') = mid := by
  rw [List.takeWhile_append]
  rw [List.takeWhile_eq_self_iff.mpr (fun x hx => by simp [hmid x hx])]
  simp [List.takeWhile_cons]

theorem dropWhile_gt_append {mid r : List Char} (hmid : ∀ c ∈ mid, c ≠ '>') :
    (mid ++ '>' :: r).dropWhile (fun x => x ≠ '>') = '>' :: r := by
  rw [List.dropWhile_append, dropWhile_of_no_gt hmid]
  simp [List.dropWhile_cons]

theorem stripTagsAux_cons_not_lt {c : Char} (h : c ≠ '<') (rest : List Char) :
    stripTagsAux [] (c :: rest) = c :: stripTagsAux [] rest := by
  rw [stripTagsAux]
  simp [h]

theorem stripTagsAux_cons_lt (rest : List Char) :
    stripTagsAux [] ('<' :: rest) = stripTagsAux ['<'] rest := by
  rw [stripTagsAux]
  simp

theorem stripTagsAux_buf_not_gt {buf : List Char} (hbuf : buf ≠ []) {c : Char}
    (hc : c ≠ '>') (rest : List Char) :
    stripTagsAux buf (c :: rest) = stripTagsAux (c :: buf) rest := by
  rw [stripTagsAux]
  simp [List.isEmpty_eq_false.mpr hbuf, hc]

theorem stripTagsAux_buf_gt {buf : List Char} (hbuf : buf ≠ []) (rest : List Char) :
    stripTagsAux buf ('>' :: rest) =
      if 2 ≤ buf.length then ' ' :: stripTagsAux [] rest
      else buf.reverse ++ ('>' :: stripTagsAux [] rest) := by
  rw [stripTagsAux]
  simp [List.isEmpty_eq_false.mpr hbuf]

theorem stripTagsAux_base {mid : List Char} (hmid : ∀ c ∈ mid, c ≠ '>') :
    stripTagsAux (mid.reverse ++ ['<']) [] = stripTagsSpec ('<' :: mid) := by
  have h0 : stripTagsAux (mid.reverse ++ ['<']) [] = (mid.reverse ++ ['<']).reverse := rfl
  rw [h0]
  rw [stripTagsSpec_cons_lt_keep (Or.inr (by rw [dropWhile_of_no_gt hmid]; rfl))]
  rw [stripTagsSpec_of_no_gt mid.length mid le_rfl hmid]
  simp

theorem stripTagsAux_eq_spec :
    ∀ n (rest : List Char), rest.length ≤ n →
      (stripTagsAux [] rest = stripTagsSpec rest ∧
       ∀ mid : List Char, (∀ c ∈ mid, c ≠ '>') →
         stripTagsAux (mid.reverse ++ ['<']) rest = stripTagsSpec ('<' :: (mid ++ rest))) := by
  intro n
  induction n with
  | zero =>
    intro rest hl
    have : rest = [] := List.length_eq_zero.mp (Nat.le_zero.mp hl)
    subst this
    refine ⟨by rw [stripTagsSpec_nil]; rfl, fun mid hmid => ?_⟩
    rw [List.append_nil]
    exact stripTagsAux_base hmid
  | succ n ih =>
    intro rest hl
    match rest with
    | [] =>
      refine ⟨by rw [stripTagsSpec_nil]; rfl, fun mid hmid => ?_⟩
      rw [List.append_nil]
      exact stripTagsAux_base hmid
    | c :: r =>
      have hr : r.length ≤ n := by
        simp only [List.length_cons] at hl; omega
      constructor
      · by_cases hc : c = '<'
        · subst hc
          rw [stripTagsAux_cons_lt r]
          have := (ih r hr).2 [] (by intro d hd; simp at hd)
          exact this
        · rw [stripTagsAux_cons_not_lt hc r, stripTagsSpec_cons_not_lt hc r,
            (ih r hr).1]
      · intro mid hmid
        have hbuf : mid.reverse ++ ['<'] ≠ [] := by simp
        by_cases hc : c = '>'
        · subst hc
          rw [stripTagsAux_buf_gt hbuf r]
          match mid, hmid with
          | [], _ =>
            rw [if_neg (by simp : ¬(2 ≤ (([] : List Char).reverse ++ ['<']).length))]
            rw [List.nil_append]
            rw [stripTagsSpec_cons_lt_keep (Or.inl (by simp [List.takeWhile_cons]))]
            rw [stripTagsSpec_cons_not_lt (by decide) r, (ih r hr).1]
            simp
          | m0 :: ms, hmid =>
            have hlen : 2 ≤ ((m0 :: ms).reverse ++ ['<']).length := by
              simp [List.length_reverse]
            rw [if_pos hlen]
            have hne : ¬((((m0 :: ms) ++ '>' :: r).takeWhile (fun x => x ≠ '>')).isEmpty ∨
                (((m0 :: ms) ++ '>' :: r).dropWhile (fun x => x ≠ '>')).isEmpty) := by
              rw [takeWhile_gt_append hmid, dropWhile_gt_append hmid]
              simp
            rw [stripTagsSpec_cons_lt_match hne, dropWhile_gt_append hmid]
            rw [(ih r hr).1]
            rfl
        · rw [stripTagsAux_buf_not_gt hbuf hc r]
          have hmid' : ∀ d ∈ mid ++ [c], d ≠ '>' := by
            intro d hd
            rcases List.mem_append.mp hd with h1 | h1
            · exact hmid d h1
            · rw [List.mem_singleton.mp h1]; exact hc
          have : stripTagsAux ((mid ++ [c]).reverse ++ ['<']) r =
              stripTagsSpec ('<' :: ((mid ++ [c]) ++ r)) := (ih r hr).2 (mid ++ [c]) hmid'
          rw [List.reverse_append] at this
          simpa [List.append_assoc] using this

theorem stripTags_eq_spec (l : List Char) : stripTags l = stripTagsSpec l :=
  (stripTagsAux_eq_spec l.length l le_rfl).1

theorem noTag_stripTags (l : List Char) : NoTag (stripTags l) := by
  rw [stripTags_eq_spec]
  exact noTag_stripTagsSpec l.length l le_rfl

theorem stripTags_of_noTag {l : List Char} (h : NoTag l) : stripTags l = l := by
  rw [stripTags_eq_spec]
  exact stripTagsSpec_of_noTag l.length l le_rfl h

/-! ## The scanner is blind to whitespace collapsing, lowercasing, stripping -/

theorem tagStep_congr_other {s : TagSt} {c d : Char} (hc1 : c ≠ '<') (hc2 : c ≠ '>')
    (hd1 : d ≠ '<') (hd2 : d ≠ '>') : tagStep s c = tagStep s d := by
  cases s <;> simp [tagStep, hc1, hc2, hd1, hd2]

theorem tagStep_space_fix {s : TagSt} {c d : Char} (hc : isPySpace c = true)
    (hd : isPySpace d = true) : tagStep (tagStep s c) d = tagStep s c := by
  cases s <;>
    simp [tagStep, space_ne_lt hc, space_ne_gt hc, space_ne_lt hd, space_ne_gt hd]

theorem collapseAux_scan (l : List Char) :
    (∀ s : TagSt, tagScan s (collapseAux false l) = tagScan s l) ∧
    (∀ u : TagSt, (∀ d, isPySpace d = true → tagStep u d = u) →
      tagScan u (collapseAux true l) = tagScan u l) := by
  induction l with
  | nil => exact ⟨fun _ => rfl, fun _ _ => rfl⟩
  | cons c r ih =>
    constructor
    · intro s
      by_cases hc : isPySpace c
      · have e : collapseAux false (c :: r) = ' ' :: collapseAux true r := by
          simp [collapseAux, hc]
        rw [e, tagScan_cons, tagScan_cons]
        have hfix : ∀ d, isPySpace d = true → tagStep (tagStep s ' ') d = tagStep s ' ' :=
          fun d hd => tagStep_space_fix (by decide) hd
        rw [ih.2 (tagStep s ' ') hfix]
        rw [tagStep_congr_other (by decide) (by decide) (space_ne_lt hc) (space_ne_gt hc)]
      · have e : collapseAux false (c :: r) = c :: collapseAux false r := by
          simp [collapseAux, hc]
        rw [e, tagScan_cons, tagScan_cons]
        exact ih.1 (tagStep s c)
    · intro u hu
      by_cases hc : isPySpace c
      · have e : collapseAux true (c :: r) = collapseAux true r := by
          simp [collapseAux, hc]
        rw [e, tagScan_cons, hu c hc]
        exact ih.2 u hu
      · have e : collapseAux true (c :: r) = c :: collapseAux false r := by
          simp [collapseAux, hc]
        rw [e, tagScan_cons, tagScan_cons]
        exact ih.1 (tagStep u c)

theorem tagScan_collapseWs (l : List Char) (s : TagSt) :
    tagScan s (collapseWs l) = tagScan s l :=
  (collapseAux_scan l).1 s

theorem tagStep_pyToLower (s : TagSt) (c : Char) :
    tagStep s (pyToLower c) = tagStep s c := by
  by_cases h : 65 ≤ c.toNat ∧ c.toNat ≤ 90
  · have ht := pyToLower_toNat_of_upper h.1 h.2
    have hc1 : c ≠ '<' := by intro he; subst he; exact absurd h (by decide)
    have hc2 : c ≠ '>' := by intro he; subst he; exact absurd h (by decide)
    have hl1 : pyToLower c ≠ '<' := by
      intro he
      rw [he] at ht
      have h60 : ('<').toNat = 60 := by decide
      omega
    have hl2 : pyToLower c ≠ '>' := by
      intro he
      rw [he] at ht
      have h62 : ('>').toNat = 62 := by decide
      omega
    exact tagStep_congr_other hl1 hl2 hc1 hc2
  · rw [pyToLower_eq_self h]

theorem tagScan_map_pyToLower (l : List Char) :
    ∀ s : TagSt, tagScan s (l.map pyToLower) = tagScan s l := by
  induction l with
  | nil => intro s; rfl
  | cons c r ih =>
    intro s
    rw [List.map_cons, tagScan_cons, tagScan_cons, tagStep_pyToLower]
    exact ih _

theorem NoTag.collapse {l : List Char} (h : NoTag l) : NoTag (collapseWs l) := by
  unfold NoTag at h ⊢
  rw [tagScan_collapseWs]
  exact h

theorem noTag_map_lower {l : List Char} (h : NoTag l) : NoTag (l.map pyToLower) := by
  unfold NoTag at h ⊢
  rw [tagScan_map_pyToLower]
  exact h

theorem pyStrip_decomp (l : List Char) :
    l = l.takeWhile isPySpace ++ pyStrip l ++
        ((l.dropWhile isPySpace).reverse.takeWhile isPySpace).reverse := by
  conv_lhs => rw [← List.takeWhile_append_dropWhile isPySpace l]
  rw [List.append_assoc]
  congr 1
  have h1 : (l.dropWhile isPySpace).reverse =
      (l.dropWhile isPySpace).reverse.takeWhile isPySpace ++
      (l.dropWhile isPySpace).reverse.dropWhile isPySpace :=
    (List.takeWhile_append_dropWhile _ _).symm
  calc l.dropWhile isPySpace
      = (l.dropWhile isPySpace).reverse.reverse := (List.reverse_reverse _).symm
    _ = ((l.dropWhile isPySpace).reverse.takeWhile isPySpace ++
          (l.dropWhile isPySpace).reverse.dropWhile isPySpace).reverse := by rw [← h1]
    _ = pyStrip l ++ ((l.dropWhile isPySpace).reverse.takeWhile isPySpace).reverse :=
          List.reverse_append _ _

theorem pyStrip_mid (l : List Char) : pyStrip l <:+: l :=
  ⟨l.takeWhile isPySpace, ((l.dropWhile isPySpace).reverse.takeWhile isPySpace).reverse,
    (pyStrip_decomp l).symm⟩

theorem NoTag.strip {l : List Char} (h : NoTag l) : NoTag (pyStrip l) :=
  noTag_of_mid h (pyStrip_mid l)

/-! ## The shape left behind by whitespace collapsing -/

theorem collapseAux_all_space (l : List Char) :
    ∀ b : Bool, ∀ c ∈ collapseAux b l, isPySpace c = true → c = ' ' := by
  induction l with
  | nil => intro b c hc; simp [collapseAux] at hc
  | cons d r ih =>
    intro b c hc hsp
    by_cases hd : isPySpace d
    · rcases b with _ | _
      · have e : collapseAux false (d :: r) = ' ' :: collapseAux true r := by
          simp [collapseAux, hd]
        rw [e] at hc
        rcases List.mem_cons.mp hc with h1 | h1
        · exact h1
        · exact ih true c h1 hsp
      · have e : collapseAux true (d :: r) = collapseAux true r := by
          simp [collapseAux, hd]
        rw [e] at hc
        exact ih true c hc hsp
    · have e : collapseAux b (d :: r) = d :: collapseAux false r := by
        rcases b with _ | _ <;> simp [collapseAux, hd]
      rw [e] at hc
      rcases List.mem_cons.mp hc with h1 | h1
      · rw [h1] at hsp; exact absurd hsp (by simp [hd])
      · exact ih false c h1 hsp

theorem collapseAux_true_head (l : List Char) :
    ∀ c r', collapseAux true l = c :: r' → isPySpace c = false := by
  induction l with
  | nil => intro c r' h; simp [collapseAux] at h
  | cons d r ih =>
    intro c r' h
    by_cases hd : isPySpace d
    · have e : collapseAux true (d :: r) = collapseAux true r := by
        simp [collapseAux, hd]
      rw [e] at h
      exact ih c r' h
    · have e : collapseAux true (d :: r) = d :: collapseAux false r := by
        simp [collapseAux, hd]
      rw [e] at h
      injection h with h1 _
      rw [← h1]
      simpa using hd

theorem collapseAux_chain (l : List Char) :
    ∀ b : Bool, (collapseAux b l).Chain'
      (fun a b' => ¬(isPySpace a = true ∧ isPySpace b' = true)) := by
  induction l with
  | nil => intro b; simp [collapseAux]
  | cons d r ih =>
    intro b
    by_cases hd : isPySpace d
    · rcases b with _ | _
      · have e : collapseAux false (d :: r) = ' ' :: collapseAux true r := by
          simp [collapseAux, hd]
        rw [e, List.chain'_cons']
        refine ⟨?_, ih true⟩
        intro y hy
        cases hX : collapseAux true r with
        | nil => rw [hX] at hy; simp at hy
        | cons y' t =>
          rw [hX] at hy
          simp only [List.head?_cons, Option.mem_some_iff] at hy
          subst hy
          have := collapseAux_true_head r y' t hX
          simp [this]
      · have e : collapseAux true (d :: r) = collapseAux true r := by
          simp [collapseAux, hd]
        rw [e]
        exact ih true
    · have e : collapseAux b (d :: r) = d :: collapseAux false r := by
        rcases b with _ | _ <;> simp [collapseAux, hd]
      rw [e, List.chain'_cons']
      refine ⟨?_, ih false⟩
      intro y _
      simp [hd]

theorem spacesOk_collapseWs (l : List Char) : SpacesOk (collapseWs l) :=
  ⟨collapseAux_all_space l false, collapseAux_chain l false⟩

theorem spacesOk_of_mid {l l' : List Char} (h : SpacesOk l) (hi : l' <:+: l) :
    SpacesOk l' :=
  ⟨fun c hc => h.1 c (hi.subset hc), List.Chain'.infix h.2 hi⟩

theorem spacesOk_map_lower {l : List Char} (h : SpacesOk l) :
    SpacesOk (l.map pyToLower) := by
  constructor
  · intro c hc hsp
    obtain ⟨d, hd, rfl⟩ := List.mem_map.mp hc
    rw [isPySpace_pyToLower] at hsp
    rw [h.1 d hd hsp]
    decide
  · rw [List.chain'_map]
    refine h.2.imp ?_
    intro a b hab hc
    exact hab ⟨(isPySpace_pyToLower a) ▸ hc.1, (isPySpace_pyToLower b) ▸ hc.2⟩

theorem collapseAux_fix (l : List Char) (h : SpacesOk l) :
    collapseAux false l = l ∧ (HeadNotSpace l → collapseAux true l = l) := by
  induction l with
  | nil => exact ⟨rfl, fun _ => rfl⟩
  | cons c r ih =>
    have hr : SpacesOk r :=
      ⟨fun d hd => h.1 d (List.mem_cons_of_mem _ hd), h.2.tail⟩
    constructor
    · by_cases hc : isPySpace c
      · have hceq : c = ' ' := h.1 c (List.mem_cons_self _ _) hc
        have e : collapseAux false (c :: r) = ' ' :: collapseAux true r := by
          simp [collapseAux, hc]
        rw [e]
        have hhead : HeadNotSpace r := by
          intro y hy
          cases r with
          | nil => simp at hy
          | cons y' t =>
            simp only [List.head?_cons, Option.mem_some_iff] at hy
            have h2 := (List.chain'_cons'.mp h.2).1 y' (by simp)
            rw [← hy]
            by_contra hys
            exact h2 ⟨hc, by simpa using hys⟩
        rw [(ih hr).2 hhead, hceq]
      · have e : collapseAux false (c :: r) = c :: collapseAux false r := by
          simp [collapseAux, hc]
        rw [e, (ih hr).1]
    · intro hh
      have hc : isPySpace c = false := hh c (by simp)
      have e : collapseAux true (c :: r) = c :: collapseAux false r := by
        simp [collapseAux, hc]
      rw [e, (ih hr).1]

theorem collapseWs_of_spacesOk {l : List Char} (h : SpacesOk l) : collapseWs l = l :=
  (collapseAux_fix l h).1

/-! ## The shape left behind by stripping -/

theorem headNotSpace_dropWhile (l : List Char) :
    HeadNotSpace (l.dropWhile isPySpace) := by
  intro c hc
  cases hX : l.dropWhile isPySpace with
  | nil => rw [hX] at hc; simp at hc
  | cons y t =>
    rw [hX] at hc
    simp only [List.head?_cons, Option.mem_some_iff] at hc
    subst hc
    exact dropWhile_head_not hX

theorem pyStrip_lastNotSpace (l : List Char) : LastNotSpace (pyStrip l) := by
  intro c hc
  rw [pyStrip, List.getLast?_reverse] at hc
  exact headNotSpace_dropWhile _ c hc

theorem pyStrip_headNotSpace (l : List Char) : HeadNotSpace (pyStrip l) := by
  intro c hc
  rw [pyStrip, List.head?_reverse] at hc
  cases hX : (l.dropWhile isPySpace).reverse.dropWhile isPySpace with
  | nil => rw [hX] at hc; simp at hc
  | cons y t =>
    have hsplit : (l.dropWhile isPySpace).reverse.takeWhile isPySpace ++ (y :: t) =
        (l.dropWhile isPySpace).reverse := by
      rw [← hX]
      exact List.takeWhile_append_dropWhile _ _
    rw [hX] at hc
    have hlast : ((l.dropWhile isPySpace).reverse).getLast? = (y :: t).getLast? := by
      rw [← hsplit, List.getLast?_append]
      cases hYT : (y :: t).getLast? with
      | none => simp at hYT
      | some z => simp
    rw [← hlast, List.getLast?_reverse] at hc
    exact headNotSpace_dropWhile l c hc

theorem pyStrip_of_not_space {l : List Char} (hh : HeadNotSpace l)
    (hl : LastNotSpace l) : pyStrip l = l := by
  have e1 : l.dropWhile isPySpace = l := by
    cases l with
    | nil => rfl
    | cons c r =>
      have hc : isPySpace c = false := hh c (by simp)
      simp [List.dropWhile_cons, hc]
  rw [pyStrip, e1]
  have e2 : l.reverse.dropWhile isPySpace = l.reverse := by
    cases hr : l.reverse with
    | nil => rfl
    | cons c r =>
      have hlc : l.getLast? = some c := by
        rw [← List.head?_reverse, hr]
        rfl
      have hc : isPySpace c = false := hl c (by rw [hlc]; rfl)
      simp [List.dropWhile_cons, hc]
  rw [e2, List.reverse_reverse]

theorem headNotSpace_map_lower {l : List Char} (h : HeadNotSpace l) :
    HeadNotSpace (l.map pyToLower) := by
  intro c hc
  cases l with
  | nil => simp at hc
  | cons d r =>
    simp only [List.map_cons, List.head?_cons, Option.mem_some_iff] at hc
    subst hc
    rw [isPySpace_pyToLower]
    exact h d (by simp)

theorem lastNotSpace_map_lower {l : List Char} (h : LastNotSpace l) :
    LastNotSpace (l.map pyToLower) := by
  intro c hc
  rw [List.getLast?_map] at hc
  cases hX : l.getLast? with
  | none => rw [hX] at hc; simp at hc
  | some d =>
    rw [hX] at hc
    have hcd : pyToLower d = c := by simpa using hc
    rw [← hcd]
    rw [isPySpace_pyToLower]
    exact h d (by rw [hX]; rfl)

/-! ## Idempotence of the normaliser -/

theorem normChars_idem (l : List Char) : normChars (normChars l) = normChars l := by
  by_cases h0 : l.isEmpty
  · have : l = [] := List.isEmpty_iff.mp h0
    subst this
    rfl
  · have hl : normChars l = (pyStrip (collapseWs (stripTags l))).map pyToLower := by
      rw [normChars, if_neg h0]
    by_cases h1 : (normChars l).isEmpty
    · rw [normChars, if_pos h1]
      exact (List.isEmpty_iff.mp h1).symm
    · have hnt : NoTag (normChars l) := by
        rw [hl]
        exact noTag_map_lower (((noTag_stripTags l).collapse).strip)
      have hso : SpacesOk (normChars l) := by
        rw [hl]
        exact spacesOk_map_lower
          (spacesOk_of_mid (spacesOk_collapseWs (stripTags l)) (pyStrip_mid _))
      have hh : HeadNotSpace (normChars l) := by
        rw [hl]
        exact headNotSpace_map_lower (pyStrip_headNotSpace (collapseWs (stripTags l)))
      have hlast : LastNotSpace (normChars l) := by
        rw [hl]
        exact lastNotSpace_map_lower (pyStrip_lastNotSpace (collapseWs (stripTags l)))
      rw [normChars, if_neg h1]
      rw [stripTags_of_noTag hnt, collapseWs_of_spacesOk hso,
        pyStrip_of_not_space hh hlast]
      conv_rhs => rw [hl]
      rw [hl, List.map_map]
      exact List.map_congr_left (fun a _ => pyToLower_idem a)

/-! ## Ranking: the modelled argsort -/

theorem leIdx_total (sims : List ℚ) (i j : Nat) (h : leIdx sims i j = false) :
    leIdx sims j i = true := by
  unfold leIdx at h ⊢
  rw [decide_eq_false_iff_not] at h
  rw [decide_eq_true_eq]
  push_neg at h
  obtain ⟨h1, h2⟩ := h
  rcases lt_trichotomy (sims.getD j 0) (sims.getD i 0) with hlt | heq | hgt
  · exact Or.inl hlt
  · right
    refine ⟨heq, ?_⟩
    have := h2 heq.symm
    omega
  · linarith

theorem leIdx_trans (sims : List ℚ) {i j k : Nat} (h1 : leIdx sims i j = true)
    (h2 : leIdx sims j k = true) : leIdx sims i k = true := by
  unfold leIdx at h1 h2 ⊢
  rw [decide_eq_true_eq] at h1 h2
  rw [decide_eq_true_eq]
  rcases h1 with hlt1 | ⟨heq1, hle1⟩ <;> rcases h2 with hlt2 | ⟨heq2, hle2⟩
  · exact Or.inl (lt_trans hlt1 hlt2)
  · exact Or.inl (heq2 ▸ hlt1)
  · exact Or.inl (heq1 ▸ hlt2)
  · exact Or.inr ⟨heq1.trans heq2, le_trans hle1 hle2⟩

theorem insertSorted_perm (le : Nat → Nat → Bool) (i : Nat) (l : List Nat) :
    (insertSorted le i l).Perm (i :: l) := by
  induction l with
  | nil => exact List.Perm.refl _
  | cons j r ih =>
    unfold insertSorted
    split_ifs
    · exact List.Perm.refl _
    · exact (List.Perm.cons j ih).trans (List.Perm.swap i j r)

theorem isort_perm (le : Nat → Nat → Bool) (l : List Nat) : (isort le l).Perm l := by
  induction l with
  | nil => exact List.Perm.refl _
  | cons i r ih =>
    unfold isort
    exact (insertSorted_perm le i (isort le r)).trans (List.Perm.cons i ih)

theorem insertSorted_pairwise {le : Nat → Nat → Bool}
    (htot : ∀ i j, le i j = false → le j i = true)
    (htrans : ∀ i j k, le i j = true → le j k = true → le i k = true)
    (i : Nat) (l : List Nat) (h : l.Pairwise (fun a b => le a b = true)) :
    (insertSorted le i l).Pairwise (fun a b => le a b = true) := by
  induction l with
  | nil => simp [insertSorted]
  | cons j r ih =>
    have hj := List.pairwise_cons.mp h
    unfold insertSorted
    split_ifs with hij
    · constructor
      · intro b hb
        rcases List.mem_cons.mp hb with h1 | h1
        · rw [h1]; exact hij
        · exact htrans i j b hij (hj.1 b h1)
      · exact h
    · constructor
      · intro b hb
        have hb' : b ∈ i :: r := (insertSorted_perm le i r).subset hb
        rcases List.mem_cons.mp hb' with h1 | h1
        · rw [h1]
          exact htot i j (by simpa using hij)
        · exact hj.1 b h1
      · exact ih hj.2

theorem isort_pairwise {le : Nat → Nat → Bool}
    (htot : ∀ i j, le i j = false → le j i = true)
    (htrans : ∀ i j k, le i j = true → le j k = true → le i k = true)
    (l : List Nat) : (isort le l).Pairwise (fun a b => le a b = true) := by
  induction l with
  | nil => simp [isort]
  | cons i r ih =>
    unfold isort
    exact insertSorted_pairwise htot htrans i (isort le r) ih

theorem argsort_perm (sims : List ℚ) : (argsort sims).Perm (List.range sims.length) :=
  isort_perm _ _

theorem argsort_length (sims : List ℚ) : (argsort sims).length = sims.length :=
  (argsort_perm sims).length_eq.trans (List.length_range _)

theorem argsort_nodup (sims : List ℚ) : (argsort sims).Nodup :=
  (argsort_perm sims).symm.nodup (List.nodup_range _)

theorem argsort_pairwise (sims : List ℚ) :
    (argsort sims).Pairwise (fun a b => leIdx sims a b = true) :=
  isort_pairwise (leIdx_total sims) (fun _ _ _ => leIdx_trans sims) _

theorem searchIdxs_length (sims : List ℚ) (k : ℤ) :
    (searchIdxs sims k).length = min (max 1 k).toNat sims.length := by
  unfold searchIdxs
  rw [List.length_take, List.length_reverse, argsort_length]

theorem searchIdxs_nodup (sims : List ℚ) (k : ℤ) : (searchIdxs sims k).Nodup :=
  (List.take_sublist _ _).nodup (List.nodup_reverse.mpr (argsort_nodup sims))

theorem searchIdxs_sorted (sims : List ℚ) (k : ℤ) :
    (searchIdxs sims k).Pairwise (fun a b => leIdx sims b a = true) :=
  List.Pairwise.sublist (List.take_sublist _ _)
    (List.pairwise_reverse.mpr (argsort_pairwise sims))

/-! ## Search branch lemmas -/

theorem search_blank {st : MiniRAG} {q : String} {k : ℤ}
    (hq : (pyStrip q.data).isEmpty) : st.search q k = [] := by
  unfold MiniRAG.search
  rw [if_pos hq]

theorem search_main {st : MiniRAG} {q : String} {k : ℤ} {f : String → List ℚ}
    (hm : st.matrix = some f) (hq : ¬(pyStrip q.data).isEmpty = true)
    (hd : ¬st.index_docs.length = 0) :
    st.search q k = (searchIdxs (f (normText q)) k).map
      (fun i => ⟨(f (normText q)).getD i 0, st.meta.getD i ⟨.product, none⟩⟩) := by
  unfold MiniRAG.search
  rw [if_neg hq, hm]
  simp only [if_neg hd]

/-! ## Corpus builder and loader facts -/

theorem mapMExcept_ok {α β ε : Type _} {f : α → Except ε β} :
    ∀ {l : List α} {ys : List β}, mapMExcept f l = .ok ys →
      ys.length = l.length ∧
      ∀ i (hi : i < l.length) (hy : i < ys.length),
        f (l.get ⟨i, hi⟩) = .ok (ys.get ⟨i, hy⟩) := by
  intro l
  induction l with
  | nil =>
    intro ys h
    unfold mapMExcept at h
    obtain rfl := Except.ok.inj h
    exact ⟨rfl, fun i hi => absurd hi (by simp)⟩
  | cons a l ih =>
    intro ys h
    unfold mapMExcept at h
    cases hf : f a with
    | error e => rw [hf] at h; simp [Bind.bind, Except.bind] at h
    | ok b =>
      rw [hf] at h
      simp only [Bind.bind, Except.bind] at h
      cases hr : mapMExcept f l with
      | error e => rw [hr] at h; simp at h
      | ok bs =>
        rw [hr] at h
        simp only [pure, Except.pure] at h
        obtain rfl := Except.ok.inj h
        obtain ⟨hlen, hget⟩ := ih hr
        refine ⟨by simp [hlen], ?_⟩
        intro i hi hy
        cases i with
        | zero => simpa using hf
        | succ m =>
          have := hget m (by simpa using hi) (by simpa using hy)
          simpa using this

theorem buildCorpus_ok {ps : List Product} {cs : List Combo} {ss : List Symptom}
    {docs : List String} {meta : List MetaTag}
    (h : buildCorpus ps cs ss = .ok (docs, meta)) :
    ∃ pdocs, mapMExcept productDoc ps = .ok pdocs ∧
      docs = pdocs ++ cs.map comboDoc ++ ss.map symptomDoc ∧
      meta = ps.map productMeta ++ cs.map comboMeta ++ ss.map symptomMeta := by
  unfold buildCorpus at h
  cases hm : mapMExcept productDoc ps with
  | error e => rw [hm] at h; simp [Bind.bind, Except.bind] at h
  | ok pdocs =>
    rw [hm] at h
    simp only [Bind.bind, Except.bind, pure, Except.pure] at h
    obtain hp := Except.ok.inj h
    exact ⟨pdocs, rfl, congrArg Prod.fst hp.symm, congrArg Prod.snd hp.symm⟩

theorem loadAll_ok_elim {loader : Loader} {fit : List String → String → List ℚ}
    {st : MiniRAG} (h : loadAll loader fit = .ok st) :
    ∃ docs meta,
      buildCorpus loader.products loader.combos loader.symptoms = .ok (docs, meta) ∧
      st.products = loader.products ∧ st.combos = loader.combos ∧
      st.symptoms = loader.symptoms ∧ st.index_docs = docs ∧ st.meta = meta := by
  unfold loadAll at h
  cases hb : buildCorpus loader.products loader.combos loader.symptoms with
  | error e => rw [hb] at h; simp [Bind.bind, Except.bind] at h
  | ok p =>
    obtain ⟨docs, meta⟩ := p
    rw [hb] at h
    simp only [Bind.bind, Except.bind] at h
    by_cases hie : docs.isEmpty = true
    · rw [if_pos hie] at h
      cases hf : fitTfidf fit [""] with
      | error e => rw [hf] at h; simp at h
      | ok m =>
        rw [hf] at h
        simp only [pure, Except.pure] at h
        obtain hst := Except.ok.inj h
        refine ⟨docs, meta, rfl, ?_, ?_, ?_, ?_, ?_⟩ <;> rw [← hst]
    · rw [if_neg hie] at h
      cases hf : fitTfidf fit docs with
      | error e => rw [hf] at h; simp at h
      | ok m =>
        rw [hf] at h
        simp only [pure, Except.pure] at h
        obtain hst := Except.ok.inj h
        refine ⟨docs, meta, rfl, ?_, ?_, ?_, ?_, ?_⟩ <;> rw [← hst]

theorem find?_eq_head_filter {α : Type _} (p : α → Bool) :
    ∀ l : List α, l.find? p = (l.filter p).head? := by
  intro l
  induction l with
  | nil => rfl
  | cons a l ih =>
    rw [List.find?_cons, List.filter_cons]
    cases hp : p a
    · simp only []
      exact ih
    · simp

/-! ## Indexing helpers -/

theorem getD_append_left {α : Type _} (A B : List α) (i : Nat) (d : α)
    (h : i < A.length) : (A ++ B).getD i d = A.getD i d := by
  rw [List.getD_eq_getElem?_getD, List.getD_eq_getElem?_getD, List.getElem?_append,
    if_pos h]

theorem getD_append_right {α : Type _} (A B : List α) (i : Nat) (d : α) :
    (A ++ B).getD (A.length + i) d = B.getD i d := by
  rw [List.getD_eq_getElem?_getD, List.getD_eq_getElem?_getD, List.getElem?_append,
    if_neg (by omega)]
  have h : A.length + i - A.length = i := by omega
  rw [h]

theorem getD_eq_get {α : Type _} (l : List α) (i : Nat) (d : α) (h : i < l.length) :
    l.getD i d = l.get ⟨i, h⟩ := by
  rw [List.getD_eq_getElem?_getD, List.getElem?_eq_getElem h]
  rfl

theorem getD_map_eq {α β : Type _} (f : α → β) (l : List α) (i : Nat) (d : β)
    (h : i < l.length) : (l.map f).getD i d = f (l.get ⟨i, h⟩) := by
  rw [List.getD_eq_getElem?_getD, List.getElem?_map, List.getElem?_eq_getElem h]
  rfl

/-! ## The claims -/

/-- C1 (amended): for every snapshot and query, the result sequence of
`search` is ordered by non-increasing similarity score, and on exact score
ties the document with the *higher* original corpus position appears before
the lower one — `argsort` places equal values in ascending index order and
line 107 then reverses the whole permutation, so ties come out in descending
corpus position, the opposite of the claimed order. -/
theorem claim_C1_amended :
    (∀ (sims : List ℚ) (k : ℤ),
      (searchIdxs sims k).Pairwise (fun i j =>
        sims.getD j 0 < sims.getD i 0 ∨ (sims.getD i 0 = sims.getD j 0 ∧ j < i))) ∧
    (∀ (st : MiniRAG) (q : String) (k : ℤ),
      (st.search q k).Pairwise (fun a b => b.score ≤ a.score)) := by
  have hkey : ∀ (sims : List ℚ) (k : ℤ), (searchIdxs sims k).Pairwise (fun i j =>
      sims.getD j 0 < sims.getD i 0 ∨ (sims.getD i 0 = sims.getD j 0 ∧ j < i)) := by
    intro sims k
    have h1 := searchIdxs_sorted sims k
    have h2 : (searchIdxs sims k).Pairwise (fun a b => a ≠ b) := searchIdxs_nodup sims k
    refine (h1.and h2).imp ?_
    intro a b hab
    obtain ⟨hle, hne⟩ := hab
    unfold leIdx at hle
    rw [decide_eq_true_eq] at hle
    rcases hle with hlt | ⟨heq, hba⟩
    · exact Or.inl hlt
    · exact Or.inr ⟨heq.symm, lt_of_le_of_ne hba (fun hc => hne hc.symm)⟩
  refine ⟨hkey, ?_⟩
  intro st q k
  by_cases hq : (pyStrip q.data).isEmpty
  · rw [search_blank hq]
    exact List.Pairwise.nil
  · cases hm : st.matrix with
    | none =>
      unfold MiniRAG.search
      rw [if_neg hq, hm]
      exact List.Pairwise.nil
    | some f =>
      by_cases hd : st.index_docs.length = 0
      · unfold MiniRAG.search
        rw [if_neg hq, hm]
        simp only [if_pos hd]
        exact List.Pairwise.nil
      · rw [search_main hm hq hd, List.pairwise_map]
        refine (hkey (f (normText q)) k).imp ?_
        intro a b hab
        rcases hab with hlt | ⟨heq, _⟩
        · exact le_of_lt hlt
        · exact le_of_eq heq.symm

/-- C1 (counterexample): a genuine snapshot built by `_load_all` over two
products whose derived documents are character-for-character identical ("P0"
first in the store).  Their cosine scores against any query coincide, and
`search` returns the *later* product "P1" first — the claim requires "P0"
first. -/
theorem claim_C1_counterexample :
    loadAll cxLoader cxFitTie = .ok cxSnap ∧
    cxSnap.index_docs.getD 0 "" = cxSnap.index_docs.getD 1 "?" ∧
    cxSnap.meta.getD 0 ⟨.product, none⟩ = ⟨.product, some "P0"⟩ ∧
    cxSnap.meta.getD 1 ⟨.product, none⟩ = ⟨.product, some "P1"⟩ ∧
    (cxSnap.search "omega" 5).map (fun h => (h.score, h.meta.id)) =
      [((1 : ℚ), some "P1"), ((1 : ℚ), some "P0")] :=
  ⟨rfl, by decide, by decide, by decide, by decide⟩

/-- C2 (failing input): with all three collections empty, `_build_corpus`
yields no documents, `_load_all` falls back to fitting the vectorizer on the
single empty-string document (rag.py line 137), and scikit-learn's
`fit_transform` raises `ValueError` on the resulting empty vocabulary — so
`reload` raises instead of returning `{ok: true, counts: all zero}`. -/
theorem claim_C2_failing :
    ∀ fit, MiniRAG.reload ⟨[], [], []⟩ fit = .error .valueError :=
  fun _ => rfl

/-- C3 (counterexample): a product whose `category_path` is the non-empty
list `["Vitamin"]`.  Line 158 passes the list itself to `_norm_text` (the
`" > ".join` default of the outer `get` is only used when the key is absent),
so `re.sub` raises `TypeError` instead of producing the nine-field document
the claim describes. -/
theorem claim_C3_counterexample :
    productDoc cxBadProduct = .error .typeError ∧
    productDoc cxBadProduct ≠ .ok (specProductDoc cxBadProduct) := by
  refine ⟨by decide, by decide⟩

/-- C3 (amended): for every product whose `category_path` is absent, a
string, or the empty list, the builder derives exactly one document equal to
the nine fields of the claim joined with `" | "` — with the ninth field being
`normalizeText(category_path)` (which agrees with `joinList` on those
shapes) — and for a product whose `category_path` is a non-empty list the
builder raises `TypeError`. -/
theorem claim_C3_amended :
    (∀ p : Product, (∀ x xs, p.category_path ≠ some (.list (x :: xs))) →
      productDoc p = .ok (String.intercalate " | "
        [normText (p.name.getD ""),
         normText (p.description.getD ""),
         joinList (p.benefits.getD []),
         normText (p.directions.getD ""),
         normText (p.warnings.getD ""),
         joinList (p.tags.getD []),
         normText (p.brand.getD ""),
         normText (p.price_text.getD ""),
         categoryNinth p.category_path])) ∧
    (∀ (p : Product) x xs, p.category_path = some (.list (x :: xs)) →
      productDoc p = .error .typeError) := by
  constructor
  · intro p hp
    match hcp : p.category_path with
    | none =>
      simp [productDoc, categoryPathField, categoryNinth, hcp]
      rfl
    | some (.str s) =>
      simp [productDoc, categoryPathField, categoryNinth, hcp]
    | some (.list []) =>
      simp [productDoc, categoryPathField, categoryNinth, hcp]
    | some (.list (x :: xs)) =>
      exact absurd hcp (hp x xs)
  · intro p x xs h
    simp [productDoc, categoryPathField, h]

/-- C3 (witness): the amended claim evaluated at a concrete product with a
string `category_path`. -/
theorem claim_C3_witness :
    productDoc aProduct = .ok (String.intercalate " | "
      [normText (aProduct.name.getD ""),
       normText (aProduct.description.getD ""),
       joinList (aProduct.benefits.getD []),
       normText (aProduct.directions.getD ""),
       normText (aProduct.warnings.getD ""),
       joinList (aProduct.tags.getD []),
       normText (aProduct.brand.getD ""),
       normText (aProduct.price_text.getD ""),
       categoryNinth aProduct.category_path]) :=
  claim_C3_amended.1 aProduct (fun x xs h => by simp [aProduct] at h)

/-- C6: for every state, query and integer `topk`, the number of results of
`search` never exceeds `min(max(1, topk), corpus size)`; in particular for
`topk ≥ 1` it never exceeds `min(topk, corpus size)`.  The hypothesis ties
the abstracted similarity vector to the corpus length (scikit-learn's
`cosine_similarity` returns one score per corpus document). -/
theorem claim_C6 : ∀ (st : MiniRAG) (q : String) (k : ℤ),
    (∀ f, st.matrix = some f → (f (normText q)).length = st.index_docs.length) →
    (st.search q k).length ≤ min (max 1 k).toNat st.index_docs.length ∧
    (1 ≤ k → (st.search q k).length ≤ min k.toNat st.index_docs.length) := by
  intro st q k hlen
  by_cases hq : (pyStrip q.data).isEmpty
  · rw [search_blank hq]
    simp
  · cases hm : st.matrix with
    | none =>
      unfold MiniRAG.search
      rw [if_neg hq, hm]
      simp
    | some f =>
      by_cases hd : st.index_docs.length = 0
      · unfold MiniRAG.search
        rw [if_neg hq, hm]
        simp [hd]
      · rw [search_main hm hq hd, List.length_map, searchIdxs_length, hlen f hm]
        refine ⟨le_refl _, ?_⟩
        intro hk
        rw [max_eq_right hk]

/-- C6 (witness): the bound evaluated on a concrete snapshot with `topk = 0`. -/
theorem claim_C6_witness :
    (wSt.search "omega" 0).length ≤ min (max 1 (0 : ℤ)).toNat wSt.index_docs.length := by
  refine (claim_C6 wSt "omega" 0 ?_).1
  intro f hf
  have h0 : wSt.matrix = some (fun _ => ([0, 0, 0] : List ℚ)) := rfl
  rw [h0] at hf
  rw [← Option.some.inj hf]
  rfl

/-- C7: `normalizeText` is idempotent — `_norm_text(_norm_text(s)) ==
_norm_text(s)` for every string `s`. -/
theorem claim_C7 : ∀ s : String, normText (normText s) = normText s :=
  fun s => congrArg (fun l => String.mk l) (normChars_idem s.data)

/-- C8: a query that is empty or consists only of whitespace makes `search`
return the empty sequence, for every state and every `topk`. -/
theorem claim_C8 : ∀ (st : MiniRAG) (q : String) (k : ℤ),
    q.data.all isPySpace = true → st.search q k = [] := by
  intro st q k h
  apply search_blank
  have hall : ∀ c ∈ q.data, isPySpace c := List.all_eq_true.mp h
  have h1 : q.data.dropWhile isPySpace = [] := List.dropWhile_eq_nil_iff.mpr hall
  simp [pyStrip, h1]

/-- C8 (witness): the empty-query law evaluated on a concrete snapshot with a
whitespace-only query. -/
theorem claim_C8_witness : wSt.search "   " 7 = [] :=
  claim_C8 wSt "   " 7 (by decide)

/-- C9: each lookup returns the first entity in store order whose key field
equals the argument (`find?` along the store is `head?` of the filtered
store), none when nothing matches, and a record missing its key field is
never returned by any lookup. -/
theorem claim_C9 : ∀ (st : MiniRAG) (key : String),
    st.get_product key = (st.products.filter (fun p => p.sku == some key)).head? ∧
    st.get_combo key = (st.combos.filter (fun c => c.id == some key)).head? ∧
    st.get_symptom key = (st.symptoms.filter (fun s => s.id == some key)).head? ∧
    (∀ p ∈ st.products, p.sku = none → st.get_product key ≠ some p) ∧
    (∀ c ∈ st.combos, c.id = none → st.get_combo key ≠ some c) ∧
    (∀ s ∈ st.symptoms, s.id = none → st.get_symptom key ≠ some s) := by
  intro st key
  refine ⟨find?_eq_head_filter _ _, find?_eq_head_filter _ _, find?_eq_head_filter _ _,
    ?_, ?_, ?_⟩
  · intro p _ hnone heq
    have := List.find?_some heq
    rw [hnone] at this
    simp at this
  · intro c _ hnone heq
    have := List.find?_some heq
    rw [hnone] at this
    simp at this
  · intro s _ hnone heq
    have := List.find?_some heq
    rw [hnone] at this
    simp at this

/-- C9 (witness): on a store whose single product has no `sku`, no lookup
ever returns that record. -/
theorem claim_C9_witness :
    kSt.get_product "x" ≠ some { name := some "no sku product" } :=
  (claim_C9 kSt "x").2.2.2.1 _ (by decide) rfl

/-- C10: for a non-blank query on a snapshot with a built matrix and a
non-empty corpus, `search` returns exactly `min(max(1, topk), corpus size)`
results drawn from pairwise-distinct corpus positions; and when the
similarity vector is all zeros (as scikit-learn produces for a fully
out-of-vocabulary query), every returned hit has score 0. -/
theorem claim_C10 : ∀ (st : MiniRAG) (q : String) (k : ℤ) (f : String → List ℚ),
    st.matrix = some f →
    st.index_docs.length ≠ 0 →
    (f (normText q)).length = st.index_docs.length →
    pyStrip q.data ≠ [] →
    (st.search q k).length = min (max 1 k).toNat st.index_docs.length ∧
    (searchIdxs (f (normText q)) k).Nodup ∧
    (f (normText q) = List.replicate st.index_docs.length 0 →
      ∀ hit ∈ st.search q k, hit.score = 0) := by
  intro st q k f hm hd hlen hq
  have hq' : ¬(pyStrip q.data).isEmpty = true := fun hC => hq (List.isEmpty_iff.mp hC)
  rw [search_main hm hq' hd]
  refine ⟨?_, searchIdxs_nodup _ _, ?_⟩
  · rw [List.length_map, searchIdxs_length, hlen]
  · intro hrep hit hh
    obtain ⟨i, _, rfl⟩ := List.mem_map.mp hh
    show (f (normText q)).getD i 0 = 0
    rw [hrep, List.getD_eq_getElem?_getD, List.getElem?_replicate]
    split_ifs <;> rfl

/-- C10 (witness): evaluated on a concrete three-document snapshot whose
similarity oracle returns the all-zero vector: `search` returns exactly two
hits for `topk = 2`, each scored 0. -/
theorem claim_C10_witness :
    (wSt.search "omega" 2).length = 2 ∧ ∀ hit ∈ wSt.search "omega" 2, hit.score = 0 := by
  have H := claim_C10 wSt "omega" 2 (fun _ => ([0, 0, 0] : List ℚ)) rfl (by decide)
    rfl (by decide)
  exact ⟨H.1.trans (by decide), H.2.2 (by decide)⟩

/-- C4: in every snapshot produced by `_load_all` (at construction and at
every reload), documents and metadata have equal length; the metadata
sequence is all products', then all combos', then all symptoms' tags in store
order; and the entry at each position carries the type and id of the entity
whose fields produced the document at that position. -/
theorem claim_C4 : ∀ (loader : Loader) (fit : List String → String → List ℚ)
    (st : MiniRAG), loadAll loader fit = .ok st →
    st.index_docs.length = st.meta.length ∧
    st.meta = loader.products.map productMeta ++ loader.combos.map comboMeta ++
      loader.symptoms.map symptomMeta ∧
    (∀ i (hi : i < loader.products.length),
      productDoc (loader.products.get ⟨i, hi⟩) = .ok (st.index_docs.getD i "") ∧
      st.meta.getD i ⟨.product, none⟩ = productMeta (loader.products.get ⟨i, hi⟩)) ∧
    (∀ i (hi : i < loader.combos.length),
      st.index_docs.getD (loader.products.length + i) "" =
        comboDoc (loader.combos.get ⟨i, hi⟩) ∧
      st.meta.getD (loader.products.length + i) ⟨.product, none⟩ =
        comboMeta (loader.combos.get ⟨i, hi⟩)) ∧
    (∀ i (hi : i < loader.symptoms.length),
      st.index_docs.getD (loader.products.length + loader.combos.length + i) "" =
        symptomDoc (loader.symptoms.get ⟨i, hi⟩) ∧
      st.meta.getD (loader.products.length + loader.combos.length + i) ⟨.product, none⟩ =
        symptomMeta (loader.symptoms.get ⟨i, hi⟩)) := by
  intro loader fit st h
  obtain ⟨docs, meta, hb, _, _, _, hdocs, hmeta⟩ := loadAll_ok_elim h
  obtain ⟨pdocs, hmap, hdocs2, hmeta2⟩ := buildCorpus_ok hb
  obtain ⟨hplen, hpget⟩ := mapMExcept_ok hmap
  have hD : st.index_docs =
      pdocs ++ loader.combos.map comboDoc ++ loader.symptoms.map symptomDoc :=
    hdocs.trans hdocs2
  have hM : st.meta = loader.products.map productMeta ++ loader.combos.map comboMeta ++
      loader.symptoms.map symptomMeta := hmeta.trans hmeta2
  refine ⟨?_, hM, ?_, ?_, ?_⟩
  · rw [hD, hM]
    simp [hplen]
  · intro i hi
    have hi' : i < pdocs.length := by rw [hplen]; exact hi
    constructor
    · rw [hD]
      rw [getD_append_left _ _ _ _ (by simp; omega)]
      rw [getD_append_left _ _ _ _ hi']
      rw [getD_eq_get _ _ _ hi']
      exact hpget i hi hi'
    · rw [hM]
      rw [getD_append_left _ _ _ _ (by simp; omega)]
      rw [getD_append_left _ _ _ _ (by simp; omega)]
      rw [getD_map_eq _ _ _ _ hi]
  · intro i hi
    constructor
    · rw [hD]
      rw [getD_append_left _ _ _ _ (by simp [hplen]; omega)]
      have hidx : loader.products.length + i = pdocs.length + i := by rw [hplen]
      rw [hidx, getD_append_right]
      rw [getD_map_eq _ _ _ _ hi]
    · rw [hM]
      rw [getD_append_left _ _ _ _ (by simp; omega)]
      have hidx : loader.products.length + i = (loader.products.map productMeta).length + i := by
        simp
      rw [hidx, getD_append_right]
      rw [getD_map_eq _ _ _ _ hi]
  · intro i hi
    constructor
    · rw [hD]
      have hidx : loader.products.length + loader.combos.length + i =
          (pdocs ++ loader.combos.map comboDoc).length + i := by
        simp [hplen]
      rw [hidx, getD_append_right]
      rw [getD_map_eq _ _ _ _ hi]
    · rw [hM]
      have hidx : loader.products.length + loader.combos.length + i =
          (loader.products.map productMeta ++ loader.combos.map comboMeta).length + i := by
        simp
      rw [hidx, getD_append_right]
      rw [getD_map_eq _ _ _ _ hi]

/-- C4 (witness): the invariant evaluated on a concrete snapshot holding one
product, one combo and one symptom. -/
theorem claim_C4_witness :
    wSt.index_docs.length = wSt.meta.length ∧
    wSt.meta = wLoader.products.map productMeta ++ wLoader.combos.map comboMeta ++
      wLoader.symptoms.map symptomMeta :=
  ⟨(claim_C4 wLoader wFit wSt rfl).1, (claim_C4 wLoader wFit wSt rfl).2.1⟩

/-- C5 (amended): `_load_all` does not publish a snapshot atomically — it
mutates the engine's fields in place, one assignment at a time (products,
combos, symptoms, then documents and metadata, then the matrix).  After the
first assignment, a concurrent reader observes the *new* product collection
paired with the *old* corpus and index; only once every assignment has run
does the object equal the consistent new snapshot (the one `loadAll`
describes). -/
theorem claim_C5_amended : ∀ (st0 : MiniRAG) (loader : Loader)
    (fit : List String → String → List ℚ) (docs : List String) (meta : List MetaTag),
    buildCorpus loader.products loader.combos loader.symptoms = .ok (docs, meta) →
    docs ≠ [] → vocabNonempty docs = true →
    (loadAllTrace st0 loader fit).getD 1 default =
      { st0 with products := loader.products } ∧
    ∃ stFinal, (loadAllTrace st0 loader fit).getLast? = some stFinal ∧
      loadAll loader fit = .ok stFinal ∧
      stFinal.products = loader.products ∧ stFinal.combos = loader.combos ∧
      stFinal.symptoms = loader.symptoms ∧ stFinal.index_docs = docs ∧
      stFinal.meta = meta ∧ stFinal.matrix = some (fit docs) := by
  intro st0 loader fit docs meta hb hne hv
  have hie : docs.isEmpty = false := by
    rw [List.isEmpty_eq_false]
    exact hne
  have hfit : fitTfidf fit docs = .ok (fit docs) := by
    unfold fitTfidf
    rw [if_pos hv]
  constructor
  · simp only [loadAllTrace, hb, hie, hfit]
    rfl
  · refine ⟨(⟨loader.products, loader.combos, loader.symptoms, docs, meta,
      some (fit docs)⟩ : MiniRAG), ?_, ?_, rfl, rfl, rfl, rfl, rfl, rfl⟩
    · simp only [loadAllTrace, hb, hie, hfit]
      rfl
    · simp only [loadAll, hb, hie, hfit, Bind.bind, Except.bind, pure, Except.pure]
      rfl

/-- C5 (counterexample): starting from the snapshot over `cxLoader` and
reloading with `wLoader`'s data, the engine state right after the first
assignment of `_load_all` holds the new product collection together with the
old document corpus — an observable mixture of the two snapshots, which the
claim rules out.  The final state's corpus differs, so the mixture is not a
coincidence of equal corpora. -/
theorem claim_C5_counterexample :
    ((loadAllTrace cxSnap wLoader wFit).getD 1 default).products = wLoader.products ∧
    ((loadAllTrace cxSnap wLoader wFit).getD 1 default).index_docs = cxSnap.index_docs ∧
    ((loadAllTrace cxSnap wLoader wFit).getD 5 default).index_docs ≠ cxSnap.index_docs := by
  refine ⟨by decide, by decide, by decide⟩

/-- C5 (witness): the amended claim evaluated on the concrete reload from
`cxSnap`'s snapshot to `wLoader`'s data. -/
theorem claim_C5_witness :
    (loadAllTrace cxSnap wLoader wFit).getD 1 default =
      { cxSnap with products := wLoader.products } :=
  (claim_C5_amended cxSnap wLoader wFit wSt.index_docs wSt.meta rfl (by decide)
    (by decide)).1

end ChatbotTpcn
